import Mathlib

/-!
Verification of the dmorph database migration runner.

This file gives a shallow embedding of the core of the dmorph Go package
(package `dmorph`): the consistency checker `checkAppliedMigrations`, the
transactional apply loop (`Run`, `applyMigrations`, `runOneMigration` in
`migration.go`), the configuration layer (`NewMorpher`, `IsValid`, functional
options) and the statement-stream splitter (`applyStepsStream`).

Modelling conventions:
- Go strings are Lean `String`; Go's byte-wise lexicographic comparison on
  UTF-8 strings agrees with the code-point lexicographic order of `String`.
  Comparisons are computed on the underlying character lists (`goLt`, `goLe`)
  so that every definition evaluates inside the kernel; bridge lemmas relate
  them to the `LinearOrder String` order.
- A `Migration` value is represented by its `Key()` string; the behaviour of
  its `Migrate` action, and all other database side effects, are supplied by
  an oracle environment `DbEnv` indexed by the number of transactions started
  so far.  Every database interaction is recorded as a `DbEvent` so that
  frame properties (what was and was not touched) are expressible.
- Go `error` values are modelled by the inductive `GoError`: `sentinel`
  models `errors.New`, `wrapped` models `fmt.Errorf("...: %w", e)`,
  `joinedOne`/`joinedTwo` model `errors.Join` of one resp. two non-nil
  errors, and `stepErr` models the splitter's
  `fmt.Errorf("apply migration %q step %d...: %w", id, step, err)` wrap.
- Logging is not modelled (it has no effect on control flow or data).
-/

/-- Go's `s < t` on strings (byte-wise lexicographic), computed on the
character list so the kernel can evaluate it. -/
def goLt (s t : String) : Bool := decide (s.data < t.data)

/-- Go's `s <= t` on strings, computed on the character list. -/
def goLe (s t : String) : Bool := decide (s.data ≤ t.data)

theorem goLt_iff (s t : String) : goLt s t = true ↔ s < t := by
  simp only [goLt, decide_eq_true_eq]
  exact (String.lt_iff_toList_lt).symm

theorem goLe_iff (s t : String) : goLe s t = true ↔ s ≤ t := by
  simp only [goLe, decide_eq_true_eq]
  exact (String.le_iff_toList_le).symm

theorem goLt_eq_false_iff (s t : String) : goLt s t = false ↔ ¬ s < t := by
  rw [← goLt_iff]
  simp

theorem goLe_eq_false_iff (s t : String) : goLe s t = false ↔ ¬ s ≤ t := by
  rw [← goLe_iff]
  simp

/-- Model of Go `error` values as produced by the dmorph package. -/
inductive GoError where
  | sentinel (name : String)
  | wrapped (msg : String) (inner : GoError)
  | joinedOne (e : GoError)
  | joinedTwo (first second : GoError)
  | stepErr (migrationID : String) (step : Nat) (isFinal : Bool) (inner : GoError)
deriving DecidableEq, Repr

/-- `errors.New("migrations unrelated")` from migration.go. -/
def errMigrationsUnrelated : GoError := .sentinel "migrations unrelated"

/-- `errors.New("migrations unsorted")` from migration.go. -/
def errMigrationsUnsorted : GoError := .sentinel "migrations unsorted"

/-- `errors.New("no dialect")` from migration.go. -/
def errNoDialect : GoError := .sentinel "no dialect"

/-- `errors.New("no migrations")` from migration.go. -/
def errNoMigrations : GoError := .sentinel "no migrations"

/-- `errors.New("no migration table")` from migration.go. -/
def errNoMigrationTable : GoError := .sentinel "no migration table"

/-- `errors.New("invalid migration table name")` from migration.go. -/
def errMigrationTableNameInvalid : GoError := .sentinel "invalid migration table name"

/-- `errors.New("migrations too old")` from migration.go. -/
def errMigrationsTooOld : GoError := .sentinel "migrations too old"

/-- Model of `errors.Join(e, rollbackErr)` as used in `runOneMigration`:
the first argument is always non-nil there, the second is the result of
`tx.Rollback()` and may be nil.  Go's `errors.Join` keeps every non-nil
argument. -/
def errorsJoin (e : GoError) (rollbackErr : Option GoError) : GoError :=
  match rollbackErr with
  | none => .joinedOne e
  | some r => .joinedTwo e r

/-- Model of `slices.IsSorted` on a `[]string`: every element is `<=` its
successor (Go checks `!(s[i] < s[i-1])` for each adjacent pair). -/
def isSortedAsc : List String → Bool
  | [] => true
  | [_] => true
  | a :: b :: rest => goLe a b && isSortedAsc (b :: rest)

/-- `(m *Morpher) checkAppliedMigrations` from migration.go, lines 283-308,
with the morpher's (sorted) migration keys passed explicitly.  The
`getLastD ""` calls render Go's `xs[len(xs)-1]` indexing, which the caller
(`Run`) only reaches with non-empty slices. -/
def checkAppliedMigrations (migKeys applied : List String) : Option GoError :=
  if !(isSortedAsc applied) then some errMigrationsUnsorted
  else if goLt (migKeys.getLastD "") (applied.getLastD "") then some errMigrationsTooOld
  else if decide (migKeys.length < applied.length) then some errMigrationsUnrelated
  else if (applied.zip migKeys).any (fun p => decide (p.1 ≠ p.2)) then some errMigrationsUnrelated
  else none

/-- Go's `max` on two strings, computed on character lists. -/
def goMax (s t : String) : String := if goLe s t then t else s

theorem goMax_eq_max (s t : String) : goMax s t = max s t := by
  rw [goMax, max_def]
  by_cases h : s ≤ t
  · rw [if_pos ((goLe_iff s t).mpr h), if_pos h]
  · rw [if_neg (by simpa [goLe_eq_false_iff] using h), if_neg h]

/-- The greatest identifier of a list of identifiers (spec wording: "the
greatest identifier in `pending`" / "`applied`"); the empty string is a
neutral element since it is the least `String`. -/
def greatest : List String → String
  | [] => ""
  | a :: rest => goMax a (greatest rest)

/-- Modelled from the spec's wording of the consistency checker (section 4.4):
the four verdicts evaluated in order — unsorted history, too-old via the
greatest identifiers, unrelated via a shrinking set, unrelated via a
position-wise mismatch on the first `len(applied)` positions. -/
def checkSpec (pending applied : List String) : Option GoError :=
  if !(isSortedAsc applied) then some errMigrationsUnsorted
  else if goLt (greatest pending) (greatest applied) then some errMigrationsTooOld
  else if decide (pending.length < applied.length) then some errMigrationsUnrelated
  else if (List.range applied.length).any
      (fun i => decide (applied.getD i "" ≠ pending.getD i "")) then some errMigrationsUnrelated
  else none

example : checkAppliedMigrations ["01", "02"] ["01", "02"] = none := by decide

example : checkAppliedMigrations ["01"] ["01", "02"] = some errMigrationsTooOld := by decide

example : checkAppliedMigrations ["02"] ["01"] = some errMigrationsUnrelated := by decide

example : checkAppliedMigrations ["01", "02"] ["02", "01"] = some errMigrationsUnsorted := by
  decide

theorem empty_le_string (s : String) : ("" : String) ≤ s :=
  String.le_iff_toList_le.mpr List.nil_le

theorem sorted_cons_cons (a b : String) (l : List String) :
    isSortedAsc (a :: b :: l) = true ↔ (a ≤ b ∧ isSortedAsc (b :: l) = true) := by
  simp [isSortedAsc, goLe_iff]

theorem getLastD_cons_cons (x y : String) (t : List String) (d : String) :
    (x :: y :: t).getLastD d = (y :: t).getLastD d := rfl

theorem sorted_le_last (l : List String) (hs : isSortedAsc l = true) :
    ∀ x ∈ l, x ≤ l.getLastD "" := by
  induction l with
  | nil => simp
  | cons a t ih =>
    intro x hx
    cases t with
    | nil =>
      rcases List.mem_singleton.mp hx with rfl
      simp [List.getLastD]
    | cons b t' =>
      rw [sorted_cons_cons] at hs
      rw [getLastD_cons_cons]
      rcases List.mem_cons.mp hx with rfl | hx'
      · exact le_trans hs.1 (ih hs.2 b (List.mem_cons_self b t'))
      · exact ih hs.2 x hx'

theorem greatest_eq_last (l : List String) (hs : isSortedAsc l = true) (hne : l ≠ []) :
    greatest l = l.getLastD "" := by
  induction l with
  | nil => exact absurd rfl hne
  | cons a t ih =>
    cases t with
    | nil =>
      rw [greatest, greatest, goMax_eq_max]
      simp only [List.getLastD]
      exact max_eq_left (empty_le_string a)
    | cons b t' =>
      rw [sorted_cons_cons] at hs
      rw [greatest, goMax_eq_max, ih hs.2 (by simp), getLastD_cons_cons]
      exact max_eq_right (le_trans hs.1 (sorted_le_last _ hs.2 b (List.mem_cons_self b t')))

theorem zip_any_eq_range_any (a : List String) :
    ∀ (p : List String), a.length ≤ p.length →
      ((a.zip p).any (fun q => decide (q.1 ≠ q.2)))
      = ((List.range a.length).any (fun i => decide (a.getD i "" ≠ p.getD i ""))) := by
  induction a with
  | nil => intro p _; simp
  | cons x a ih =>
    intro p h
    cases p with
    | nil => simp at h
    | cons y p =>
      simp only [List.length_cons, Nat.succ_le_succ_iff] at h
      simp only [List.zip_cons_cons, List.any_cons, List.length_cons,
        List.range_succ_eq_map, List.any_map]
      rw [ih p h]
      simp [Function.comp_def]

/-- C1: for every non-empty applied history and non-empty pending set sorted
ascending by key, the consistency check `checkAppliedMigrations` returns
exactly the verdict cascade described by the spec (`checkSpec`): first the
unsorted-history error, then the too-old error (comparing the greatest
identifiers), then the unrelated error for a shrinking set, then the
unrelated error for a common-prefix mismatch, otherwise success.  Since
`checkSpec` tests too-old strictly before the unrelated conditions, a history
satisfying both reports too-old. -/
theorem checkAppliedMigrations_matches_spec (pending applied : List String)
    (hp : pending ≠ []) (ha : applied ≠ []) (hsp : isSortedAsc pending = true) :
    checkAppliedMigrations pending applied = checkSpec pending applied := by
  rw [checkAppliedMigrations, checkSpec]
  cases hsa : isSortedAsc applied with
  | false => simp
  | true =>
    rw [greatest_eq_last pending hsp hp, greatest_eq_last applied hsa ha]
    cases hlen : decide (pending.length < applied.length) with
    | true => rfl
    | false =>
      have hle : applied.length ≤ pending.length :=
        Nat.le_of_not_lt (of_decide_eq_false hlen)
      rw [zip_any_eq_range_any applied pending hle]

/-- Witness for C1 at a history where both the too-old and the unrelated
(shrinking-set) conditions hold: the check agrees with the spec cascade and
reports the too-old error. -/
theorem checkAppliedMigrations_matches_spec_witness :
    checkAppliedMigrations ["01"] ["01", "02"] = checkSpec ["01"] ["01", "02"]
    ∧ checkAppliedMigrations ["01"] ["01", "02"] = some errMigrationsTooOld :=
  ⟨checkAppliedMigrations_matches_spec ["01"] ["01", "02"] (by decide) (by decide) (by decide),
   by decide⟩

/-- One database interaction performed during a run, tagged with the key of
the migration it belongs to (or standing for the two history queries). -/
inductive DbEvent where
  | ensureTable
  | listApplied
  | beginTx (key : String)
  | migrate (key : String)
  | register (key : String)
  | commit (key : String)
  | rollback (key : String)
deriving DecidableEq, Repr

/-- Oracle environment standing for the database, the dialect and the
migration actions.  The per-transaction oracles are indexed by the number of
migrations executed (transactions started) so far, so any sequence of
backend behaviours is representable.  `ensureErr` is the result of
`EnsureMigrationTableExists`, `applied` the result of `AppliedMigrations`,
`ctxErr` the result of the `ctx.Err()` check made before each transaction. -/
structure DbEnv where
  ensureErr : Option GoError
  applied : Except GoError (List String)
  ctxErr : Nat → Option GoError
  beginErr : Nat → Option GoError
  migrateErr : Nat → Option GoError
  registerErr : Nat → Option GoError
  commitErr : Nat → Option GoError
  rollbackErr : Nat → Option GoError

/-- An environment in which every per-transaction operation succeeds. -/
def DbEnv.allOk (env : DbEnv) : Prop :=
  ∀ n, env.ctxErr n = none ∧ env.beginErr n = none ∧ env.migrateErr n = none
    ∧ env.registerErr n = none ∧ env.commitErr n = none

/-- `(m *Morpher) runOneMigration` from migration.go, lines 248-279: begin a
transaction, run the migration, register it, commit; on any failure roll the
transaction back explicitly and return `errors.Join` of the failure and the
rollback result.  `n` is the index of this transaction in the run.  The
returned event list records the database interactions in order.  (The
deferred safety-net `tx.Rollback()` after a commit or an explicit rollback is
a no-op on an already-finished transaction and is not recorded.) -/
def runOneMigration (env : DbEnv) (n : Nat) (key : String) :
    Option GoError × List DbEvent :=
  match env.beginErr n with
  | some e => (some (.wrapped "begin tx" e), [.beginTx key])
  | none =>
    match env.migrateErr n with
    | some e =>
      (some (errorsJoin e (env.rollbackErr n)),
       [.beginTx key, .migrate key, .rollback key])
    | none =>
      match env.registerErr n with
      | some e =>
        (some (errorsJoin e (env.rollbackErr n)),
         [.beginTx key, .migrate key, .register key, .rollback key])
      | none =>
        match env.commitErr n with
        | some e =>
          (some (errorsJoin e (env.rollbackErr n)),
           [.beginTx key, .migrate key, .register key, .commit key, .rollback key])
        | none =>
          (none, [.beginTx key, .migrate key, .register key, .commit key])

/-- `(m *Morpher) applyMigrations` from migration.go, lines 216-245: walk the
sorted keys; a key `<=` the resume point `last` is skipped with no database
interaction; otherwise check the context, run the migration in its own
transaction and stop the whole loop on the first error.  `n` counts the
transactions started so far. -/
def applyMigrations (env : DbEnv) (migs : List String) (last : String) (n : Nat) :
    Option GoError × List DbEvent :=
  match migs with
  | [] => (none, [])
  | key :: rest =>
    if goLe key last then applyMigrations env rest last n
    else
      match env.ctxErr n with
      | some e => (some (.wrapped ("context cancelled before migration " ++ key) e), [])
      | none =>
        match runOneMigration env n key with
        | (some e, tr) => (some e, tr)
        | (none, tr) =>
          let res := applyMigrations env rest last (n + 1)
          (res.1, tr ++ res.2)

/-- The events of one successfully executed migration. -/
def execEvents (key : String) : List DbEvent :=
  [.beginTx key, .migrate key, .register key, .commit key]

/-- In an all-success environment the loop returns no error and its trace is
exactly the executions, in order, of the keys strictly greater than the
resume point; keys `<=` the resume point contribute nothing. -/
theorem applyMigrations_allOk (env : DbEnv) (hok : env.allOk) :
    ∀ (migs : List String) (last : String) (n : Nat),
      applyMigrations env migs last n
        = (none, (migs.filter (fun k => goLt last k)).flatMap execEvents) := by
  intro migs
  induction migs with
  | nil => intro last n; rfl
  | cons key rest ih =>
    intro last n
    rw [applyMigrations]
    obtain ⟨hc, hb, hm, hr, hco⟩ := hok n
    cases hskip : goLe key last with
    | true =>
      have hnlt : goLt last key = false := by
        rw [goLt_eq_false_iff]
        exact not_lt_of_le ((goLe_iff key last).mp hskip)
      simp only [if_true]
      rw [ih last n, List.filter_cons, hnlt]
      simp
    | false =>
      have hlt : goLt last key = true := by
        rw [goLt_iff]
        exact lt_of_not_le (fun h => by rw [(goLe_iff key last).mpr h] at hskip; cases hskip)
      simp only [Bool.false_eq_true, if_false]
      rw [hc, runOneMigration, hb, hm, hr, hco]
      rw [ih last (n + 1), List.filter_cons, hlt]
      simp [execEvents]

/-- Marker for a configured database dialect; only its presence matters to
the configuration checks (`m.Dialect == nil` in Go). -/
structure Dialect where
deriving DecidableEq, Repr

/-- The `Morpher` struct from migration.go with each migration represented by
its key; the logger field is omitted (it never influences control flow). -/
structure Morpher where
  dialect : Option Dialect
  migrations : List String
  tableName : String
deriving DecidableEq, Repr

/-- `ValidTableNameRex.MatchString` for the pattern `^[a-zA-Z0-9_]+$`: at
least one character, all of them ASCII letters, digits or underscore. -/
def validTableNameRex (s : String) : Bool :=
  decide (1 ≤ s.length) && s.data.all (fun c => c.isAlpha || c.isDigit || c == '_')

/-- `(m *Morpher) IsValid` from migration.go, lines 154-172: dialect present,
at least one migration, non-empty table name matching the allow-list. -/
def IsValid (m : Morpher) : Option GoError :=
  if m.dialect.isNone then some errNoDialect
  else if decide (m.migrations.length < 1) then some errNoMigrations
  else if decide (m.tableName.length < 1) then some errNoMigrationTable
  else if !(validTableNameRex m.tableName) then some errMigrationTableNameInvalid
  else none

/-- The functional options of migration.go (`WithDialect`, `WithMigrations`,
`WithLog`, `WithTableName`); the file-based options (`WithMigrationFromFile`
and friends) behave like `withMigrations` of the file names. -/
inductive MorphOption where
  | withDialect (d : Dialect)
  | withMigrations (keys : List String)
  | withLog
  | withTableName (name : String)
deriving DecidableEq, Repr

/-- The effect of one functional option on the morpher under construction,
mirroring the closures in migration.go: only `WithTableName` can fail, and it
validates length and allow-list pattern before assigning. -/
def applyOption (o : MorphOption) (m : Morpher) : Except GoError Morpher :=
  match o with
  | .withDialect d => .ok { m with dialect := some d }
  | .withMigrations keys => .ok { m with migrations := m.migrations ++ keys }
  | .withLog => .ok m
  | .withTableName name =>
    if decide (name.length < 1) then .error errMigrationTableNameInvalid
    else if !(validTableNameRex name) then .error errMigrationTableNameInvalid
    else .ok { m with tableName := name }

/-- Folding the option list, stopping at the first failing option. -/
def applyOptions : List MorphOption → Morpher → Except GoError Morpher
  | [], m => .ok m
  | o :: os, m =>
    match applyOption o m with
    | .error e => .error e
    | .ok m1 => applyOptions os m1

/-- `NewMorpher` from migration.go, lines 134-151: start from the default
configuration (table name "migrations"), apply the options in order failing
fast, then check `IsValid`. -/
def NewMorpher (options : List MorphOption) : Except GoError Morpher :=
  match applyOptions options { dialect := none, migrations := [], tableName := "migrations" } with
  | .error e => .error e
  | .ok m =>
    match IsValid m with
    | some e => .error e
    | none => .ok m

/-- Insertion of a key into a sorted key list. -/
def insertKey (k : String) : List String → List String
  | [] => [k]
  | x :: xs => if goLe k x then k :: x :: xs else x :: insertKey k xs

/-- Model of `slices.SortFunc(m.Migrations, migrationOrder)`: sorting the
keys ascending.  Since a migration is represented by its key, the sorted
permutation is unique, so this insertion sort is extensionally the sort the
Go library performs. -/
def sortKeys : List String → List String
  | [] => []
  | k :: ks => insertKey k (sortKeys ks)

/-- `(m *Morpher) Run` from migration.go, lines 179-212: validate, ensure
the bookkeeping table, list the applied history, sort the migrations in
place, run the consistency check when the history is non-empty, derive the
resume point and enter the apply loop.  The third component is the
morpher's `Migrations` slice after the call (`Run` sorts it in place). -/
def Run (env : DbEnv) (m : Morpher) : Option GoError × List DbEvent × List String :=
  match IsValid m with
  | some e => (some e, [], m.migrations)
  | none =>
    match env.ensureErr with
    | some e => (some (.wrapped "could not create migration table" e), [.ensureTable], m.migrations)
    | none =>
      match env.applied with
      | .error e =>
        (some (.wrapped "could not get applied migrations" e),
         [.ensureTable, .listApplied], m.migrations)
      | .ok applied =>
        let sorted := sortKeys m.migrations
        match applied with
        | [] =>
          let res := applyMigrations env sorted "" 0
          (res.1, [.ensureTable, .listApplied] ++ res.2, sorted)
        | a :: rest =>
          match checkAppliedMigrations sorted (a :: rest) with
          | some e => (some e, [.ensureTable, .listApplied], sorted)
          | none =>
            let last := (a :: rest).getLastD ""
            let res := applyMigrations env sorted last 0
            (res.1, [.ensureTable, .listApplied] ++ res.2, sorted)

theorem insertKey_eq (k : String) :
    ∀ l, insertKey k l = List.orderedInsert (· ≤ ·) k l := by
  intro l
  induction l with
  | nil => rfl
  | cons x xs ih =>
    rw [insertKey, List.orderedInsert]
    by_cases hp : k ≤ x
    · have hb : goLe k x = true := (goLe_iff k x).mpr hp
      rw [hb, if_pos hp]
      simp
    · have hb : goLe k x = false := by
        rw [goLe_eq_false_iff]
        exact hp
      rw [hb, if_neg hp, ← ih]
      simp

theorem sortKeys_eq (l : List String) : sortKeys l = List.insertionSort (· ≤ ·) l := by
  induction l with
  | nil => rfl
  | cons k ks ih => rw [sortKeys, List.insertionSort, ih, insertKey_eq]

theorem isSortedAsc_iff_chain (l : List String) :
    isSortedAsc l = true ↔ List.Chain' (· ≤ ·) l := by
  induction l with
  | nil => simp [isSortedAsc]
  | cons a t ih =>
    cases t with
    | nil => simp [isSortedAsc]
    | cons b t' =>
      rw [List.chain'_cons, ← ih]
      simp [isSortedAsc, goLe_iff, Bool.and_eq_true]

theorem sortKeys_sorted (l : List String) : isSortedAsc (sortKeys l) = true := by
  rw [isSortedAsc_iff_chain, sortKeys_eq]
  exact (List.sorted_insertionSort (· ≤ ·) l).chain'

theorem sortKeys_perm (l : List String) : (sortKeys l).Perm l := by
  rw [sortKeys_eq]
  exact List.perm_insertionSort (· ≤ ·) l

theorem zip_self_any_ne_false (l : List String) :
    (l.zip l).any (fun p => decide (p.1 ≠ p.2)) = false := by
  induction l with
  | nil => rfl
  | cons a t ih =>
    rw [List.zip_cons_cons, List.any_cons, ih]
    simp

theorem checkApplied_self (l : List String) (hs : isSortedAsc l = true) :
    checkAppliedMigrations l l = none := by
  rw [checkAppliedMigrations, hs]
  have h1 : goLt (l.getLastD "") (l.getLastD "") = false := by
    rw [goLt_eq_false_iff]
    exact lt_irrefl _
  rw [h1, zip_self_any_ne_false]
  simp

theorem IsValid_none_ne_nil (m : Morpher) (h : IsValid m = none) : m.migrations ≠ [] := by
  intro hnil
  rw [IsValid, hnil] at h
  cases hd : m.dialect.isNone <;> rw [hd] at h <;> simp at h

/-- An all-success environment over an initially empty history, shared by
several concrete instantiations below. -/
def envFresh : DbEnv :=
  { ensureErr := none
    applied := .ok []
    ctxErr := fun _ => none
    beginErr := fun _ => none
    migrateErr := fun _ => none
    registerErr := fun _ => none
    commitErr := fun _ => none
    rollbackErr := fun _ => none }

theorem envFresh_allOk : DbEnv.allOk envFresh :=
  fun _ => ⟨rfl, rfl, rfl, rfl, rfl⟩

/-- C2: when the migration at the head of the remaining loop is due
(key strictly greater than the resume point) and its apply step, its
registration step, or its commit fails, the transaction is explicitly rolled
back, the loop returns `errors.Join` of the original failure and the rollback
result (neither is discarded), and nothing after the failing migration is
attempted: the trace ends with that migration's rollback. -/
theorem migration_failure_rolls_back_and_halts (env : DbEnv) (n : Nat)
    (key last : String) (rest : List String) (e : GoError)
    (hk : goLt last key = true) (hctx : env.ctxErr n = none)
    (hb : env.beginErr n = none) :
    (env.migrateErr n = some e →
      applyMigrations env (key :: rest) last n
        = (some (errorsJoin e (env.rollbackErr n)),
           [.beginTx key, .migrate key, .rollback key]))
    ∧ (env.migrateErr n = none → env.registerErr n = some e →
      applyMigrations env (key :: rest) last n
        = (some (errorsJoin e (env.rollbackErr n)),
           [.beginTx key, .migrate key, .register key, .rollback key]))
    ∧ (env.migrateErr n = none → env.registerErr n = none → env.commitErr n = some e →
      applyMigrations env (key :: rest) last n
        = (some (errorsJoin e (env.rollbackErr n)),
           [.beginTx key, .migrate key, .register key, .commit key, .rollback key])) := by
  have hskip : goLe key last = false := by
    rw [goLe_eq_false_iff]
    exact not_le_of_lt ((goLt_iff last key).mp hk)
  refine ⟨?_, ?_, ?_⟩
  · intro hm
    rw [applyMigrations, hskip, if_neg (by simp), hctx, runOneMigration, hb, hm]
  · intro hm hr
    rw [applyMigrations, hskip, if_neg (by simp), hctx, runOneMigration, hb, hm, hr]
  · intro hm hr hc
    rw [applyMigrations, hskip, if_neg (by simp), hctx, runOneMigration, hb, hm, hr, hc]

/-- Environment whose first transaction fails at the migration's apply step. -/
def envFailMigrate : DbEnv :=
  { envFresh with migrateErr := fun _ => some (.sentinel "boom") }

/-- Witness for C2: with a due migration "02" past resume point "01" whose
apply step fails, the loop stops with the joined error after rolling back,
never reaching "03". -/
theorem migration_failure_rolls_back_and_halts_witness :
    goLt "01" "02" = true
    ∧ applyMigrations envFailMigrate ["02", "03"] "01" 0
        = (some (errorsJoin (.sentinel "boom") none),
           [.beginTx "02", .migrate "02", .rollback "02"]) :=
  ⟨by decide,
   (migration_failure_rolls_back_and_halts envFailMigrate 0 "02" "01" ["03"]
      (.sentinel "boom") (by decide) rfl rfl).1 rfl⟩

/-- C5: in an all-success environment the loop executes exactly the pending
migrations whose key is strictly greater than the resume point, in order; a
migration whose key is less than or equal to the resume point causes no
database interaction at all (in particular it is never migrated). -/
theorem applyMigrations_resume_point (env : DbEnv) (migs : List String)
    (last : String) (n : Nat) (hok : env.allOk) :
    (applyMigrations env migs last n).1 = none
    ∧ (applyMigrations env migs last n).2
        = (migs.filter (fun k => goLt last k)).flatMap execEvents
    ∧ ∀ k, goLe k last = true →
        DbEvent.migrate k ∉ (applyMigrations env migs last n).2 := by
  rw [applyMigrations_allOk env hok migs last n]
  refine ⟨rfl, rfl, ?_⟩
  intro k hk hmem
  rcases List.mem_flatMap.mp hmem with ⟨k1, hk1, hev⟩
  have hkk : k1 = k := by
    simp only [execEvents, List.mem_cons, List.not_mem_nil, or_false] at hev
    rcases hev with h | h | h | h <;> cases h
    rfl
  subst hkk
  have hfil := List.of_mem_filter hk1
  rw [goLt_iff] at hfil
  rw [goLe_iff] at hk
  exact absurd hfil (not_lt_of_le hk)

/-- Witness for C5: with resume point "02", only "03" of ["01", "02", "03"]
is executed and "01" is never migrated. -/
theorem applyMigrations_resume_point_witness :
    (applyMigrations envFresh ["01", "02", "03"] "02" 0).1 = none
    ∧ (applyMigrations envFresh ["01", "02", "03"] "02" 0).2
        = (["01", "02", "03"].filter (fun k => goLt "02" k)).flatMap execEvents
    ∧ ∀ k, goLe k "02" = true →
        DbEvent.migrate k ∉ (applyMigrations envFresh ["01", "02", "03"] "02" 0).2 :=
  applyMigrations_resume_point envFresh ["01", "02", "03"] "02" 0 envFresh_allOk

theorem count_flatMap_migrate (k : String) (l : List String) :
    ((l.flatMap execEvents).count (DbEvent.migrate k)) = l.count k := by
  induction l with
  | nil => rfl
  | cons x t ih =>
    rw [List.flatMap_cons, List.count_append, ih]
    by_cases hx : x = k
    · subst hx
      simp [execEvents, List.count_cons, Nat.add_comm]
    · simp [execEvents, List.count_cons, hx, Ne.symm hx]

theorem count_flatMap_register (k : String) (l : List String) :
    ((l.flatMap execEvents).count (DbEvent.register k)) = l.count k := by
  induction l with
  | nil => rfl
  | cons x t ih =>
    rw [List.flatMap_cons, List.count_append, ih]
    by_cases hx : x = k
    · subst hx
      simp [execEvents, List.count_cons, Nat.add_comm]
    · simp [execEvents, List.count_cons, hx, Ne.symm hx]

theorem count_filter_goLt (last k : String) (hk : goLt last k = true)
    (l : List String) :
    (l.filter (fun x => goLt last x)).count k = l.count k := by
  induction l with
  | nil => rfl
  | cons x t ih =>
    rw [List.filter_cons]
    by_cases hx : x = k
    · subst hx
      rw [hk]
      simp [List.count_cons, ih]
    · cases hfx : goLt last x <;>
        simp [List.count_cons, hx, Ne.symm hx, ih]

/-- C10: the resume point is fixed for the whole apply loop — in an
all-success environment every occurrence of a key strictly greater than the
resume point is executed and registered, so a pending set containing the
same key twice (both past the resume point) migrates and registers that key
twice: the trace counts equal the multiplicity in the pending list. -/
theorem resume_point_fixed_duplicates_executed (env : DbEnv) (hok : env.allOk)
    (migs : List String) (last k : String) (hk : goLt last k = true) :
    ((applyMigrations env migs last 0).2.count (DbEvent.migrate k) = migs.count k)
    ∧ ((applyMigrations env migs last 0).2.count (DbEvent.register k) = migs.count k) := by
  rw [applyMigrations_allOk env hok migs last 0]
  exact ⟨by rw [count_flatMap_migrate, count_filter_goLt last k hk],
         by rw [count_flatMap_register, count_filter_goLt last k hk]⟩

/-- Witness for C10: the pending set ["01", "02", "02"] past resume point
"01" migrates and registers key "02" twice. -/
theorem resume_point_fixed_duplicates_executed_witness :
    (applyMigrations envFresh ["01", "02", "02"] "01" 0).2.count (DbEvent.migrate "02") = 2
    ∧ (applyMigrations envFresh ["01", "02", "02"] "01" 0).2.count (DbEvent.register "02") = 2 :=
  resume_point_fixed_duplicates_executed envFresh envFresh_allOk
    ["01", "02", "02"] "01" "02" (by decide)

theorem sortKeys_ne_nil (l : List String) (h : l ≠ []) : sortKeys l ≠ [] := by
  intro h0
  have hlen := (sortKeys_perm l).length_eq
  rw [h0] at hlen
  exact h (List.eq_nil_of_length_eq_zero hlen.symm)

theorem filter_goLt_last_nil (l : List String) (hs : isSortedAsc l = true) :
    l.filter (fun k => goLt (l.getLastD "") k) = [] := by
  rw [List.filter_eq_nil_iff]
  intro k hk
  intro hbad
  rw [goLt_iff] at hbad
  exact absurd hbad (not_lt_of_le (sorted_le_last l hs k hk))

/-- C3: idempotence of a run — if the applied history equals the morpher's
migration keys sorted ascending (a previous run applied everything), a new
run succeeds with no error, performs only the two history queries and
executes zero migrations; the consistency check passes and every pending key
is less than or equal to the resume point. -/
theorem run_idempotent (env : DbEnv) (m : Morpher) (hok : env.allOk)
    (hvalid : IsValid m = none) (hens : env.ensureErr = none)
    (happ : env.applied = .ok (sortKeys m.migrations)) :
    Run env m = (none, [.ensureTable, .listApplied], sortKeys m.migrations)
    ∧ checkAppliedMigrations (sortKeys m.migrations) (sortKeys m.migrations) = none
    ∧ ∀ k ∈ sortKeys m.migrations, k ≤ (sortKeys m.migrations).getLastD "" := by
  have hsorted := sortKeys_sorted m.migrations
  have hcheck := checkApplied_self (sortKeys m.migrations) hsorted
  have hlast := sorted_le_last (sortKeys m.migrations) hsorted
  refine ⟨?_, hcheck, hlast⟩
  obtain ⟨a, rest, har⟩ :=
    List.exists_cons_of_ne_nil (sortKeys_ne_nil m.migrations (IsValid_none_ne_nil m hvalid))
  rw [har] at hcheck
  rw [Run, hvalid, hens, happ, har]
  dsimp only
  rw [hcheck]
  dsimp only
  have hfil := filter_goLt_last_nil (a :: rest) (har ▸ hsorted)
  rw [applyMigrations_allOk env hok (a :: rest) ((a :: rest).getLastD "") 0, hfil]
  simp

/-- The morpher used in several witnesses: SQLite-style dialect present, two
file migrations, default table name. -/
def morpherTwo : Morpher :=
  { dialect := some {}, migrations := ["01", "02"], tableName := "migrations" }

/-- Environment whose history already contains exactly the two keys of
`morpherTwo` in order. -/
def envDone : DbEnv := { envFresh with applied := .ok ["01", "02"] }

/-- Witness for C3: rerunning `morpherTwo` against its own completed history
performs no migration and reports no error. -/
theorem run_idempotent_witness :
    Run envDone morpherTwo = (none, [.ensureTable, .listApplied], sortKeys morpherTwo.migrations)
    ∧ checkAppliedMigrations (sortKeys morpherTwo.migrations) (sortKeys morpherTwo.migrations)
        = none
    ∧ ∀ k ∈ sortKeys morpherTwo.migrations,
        k ≤ (sortKeys morpherTwo.migrations).getLastD "" :=
  run_idempotent envDone morpherTwo (fun _ => ⟨rfl, rfl, rfl, rfl, rfl⟩) rfl rfl rfl

/-- The morpher whose migration keys are supplied in descending order. -/
def morpherUnsorted : Morpher :=
  { dialect := some {}, migrations := ["02", "01"], tableName := "migrations" }

/-- Counterexample to C9 as stated: `Run` sorts `m.Migrations` in place
(`slices.SortFunc` in migration.go line 194), so after a successful run on a
fresh database the collection ["02", "01"] has become ["01", "02"] — not the
same order as before the call. -/
theorem run_reorders_migrations :
    (Run envFresh morpherUnsorted).2.2 ≠ morpherUnsorted.migrations := by
  decide

/-- C9 amended: the migration set is preserved only up to order — after any
`Run` the morpher's collection is a permutation of the one before the call,
and once validation, table creation and history listing have succeeded it is
exactly the previous collection sorted ascending by key (so an already
sorted collection is unchanged, an unsorted one is reordered in place). -/
theorem run_post_migrations (env : DbEnv) (m : Morpher) :
    (Run env m).2.2.Perm m.migrations
    ∧ (IsValid m = none → env.ensureErr = none →
        ∀ l, env.applied = .ok l → (Run env m).2.2 = sortKeys m.migrations) := by
  constructor
  · rw [Run]
    cases hvalid : IsValid m with
    | some e => exact List.Perm.refl _
    | none =>
      cases hens : env.ensureErr with
      | some e => exact List.Perm.refl _
      | none =>
        cases happ : env.applied with
        | error e => exact List.Perm.refl _
        | ok applied =>
          cases applied with
          | nil => exact sortKeys_perm m.migrations
          | cons a rest =>
            dsimp only
            cases checkAppliedMigrations (sortKeys m.migrations) (a :: rest) with
            | some e => exact sortKeys_perm m.migrations
            | none => exact sortKeys_perm m.migrations
  · intro hvalid hens l happ
    rw [Run, hvalid, hens, happ]
    cases l with
    | nil => rfl
    | cons a rest =>
      dsimp only
      cases checkAppliedMigrations (sortKeys m.migrations) (a :: rest) with
      | some e => rfl
      | none => rfl

/-- Witness for C9 amended, at a fresh database and the unsorted morpher:
the collection after the run is the sorted permutation. -/
theorem run_post_migrations_witness :
    (Run envFresh morpherUnsorted).2.2.Perm morpherUnsorted.migrations
    ∧ (Run envFresh morpherUnsorted).2.2 = sortKeys morpherUnsorted.migrations :=
  ⟨(run_post_migrations envFresh morpherUnsorted).1,
   (run_post_migrations envFresh morpherUnsorted).2 rfl rfl [] rfl⟩

/-- The canonical option list supplying a dialect (or not), a migration set
and a table name (or keeping the default), as in the spec's quantification
over (dialect, migrations, table-name) configurations. -/
def optionsOf (d : Option Dialect) (migs : List String) (tn : Option String) :
    List MorphOption :=
  (match d with
   | none => []
   | some dd => [.withDialect dd])
  ++ [.withMigrations migs]
  ++ (match tn with
      | none => []
      | some t => [.withTableName t])

/-- C6: construction succeeds exactly when a dialect is supplied, the
migration set is non-empty and the (defaulted) table name matches
`^[a-zA-Z0-9_]+$`; and a run on an invalid configuration returns the
configuration error before any database interaction (empty event trace,
migrations untouched). -/
theorem newMorpher_valid_iff :
    (∀ (d : Option Dialect) (migs : List String) (tn : Option String),
      (∃ m, NewMorpher (optionsOf d migs tn) = .ok m)
      ↔ (d.isSome = true ∧ migs ≠ []
          ∧ validTableNameRex (tn.getD "migrations") = true))
    ∧ (∀ (env : DbEnv) (m : Morpher) (e : GoError),
        IsValid m = some e → Run env m = (some e, [], m.migrations)) := by
  constructor
  · intro d migs tn
    have hdef : validTableNameRex "migrations" = true := by decide
    have hml : ¬ ("migrations".length = 0) := by decide
    cases d with
    | none =>
      cases tn with
      | none =>
        simp only [optionsOf, NewMorpher, applyOptions, applyOption, IsValid]
        cases migs <;> simp
      | some t =>
        simp only [optionsOf, NewMorpher, applyOptions, applyOption, IsValid]
        by_cases hlen : t.length < 1
        · have hrex : validTableNameRex t = false := by
            rw [validTableNameRex]
            simp only [Bool.and_eq_false_iff]
            left
            simpa using hlen
          simp [hlen, hrex]
        · cases hrex : validTableNameRex t <;> cases migs <;> simp [hlen, hrex]
    | some dd =>
      cases tn with
      | none =>
        simp only [optionsOf, NewMorpher, applyOptions, applyOption, IsValid]
        cases migs <;> simp [hdef, hml]
      | some t =>
        simp only [optionsOf, NewMorpher, applyOptions, applyOption, IsValid]
        by_cases hlen : t.length < 1
        · have hrex : validTableNameRex t = false := by
            rw [validTableNameRex]
            simp only [Bool.and_eq_false_iff]
            left
            simpa using hlen
          simp [hlen, hrex]
        · have h1 : ¬ t.length < 1 := hlen
          cases hrex : validTableNameRex t <;> cases migs <;> simp [h1, hrex]
  · intro env m e h
    rw [Run, h]

/-- Witness for C6: a dialect plus one migration constructs successfully,
and running the dialect-less configuration fails with the no-dialect error
and an empty trace. -/
theorem newMorpher_valid_iff_witness :
    (∃ m, NewMorpher (optionsOf (some {}) ["01"] none) = .ok m)
    ∧ Run envFresh { dialect := none, migrations := ["01"], tableName := "migrations" }
        = (some errNoDialect, [], ["01"]) :=
  ⟨(newMorpher_valid_iff.1 (some {}) ["01"] none).mpr ⟨rfl, by decide, by decide⟩,
   newMorpher_valid_iff.2 envFresh
     { dialect := none, migrations := ["01"], tableName := "migrations" } errNoDialect rfl⟩

/-- The buffer step of applyStepsStream (dialects.go lines 400-406): a
newline is written between lines only when the buffer already holds content
(`if buf.Len() > 0 { buf.WriteByte('\n') }; buf.Write(line)`). -/
def bufAppend (buf line : String) : String :=
  if decide (0 < buf.length) then buf ++ "\n" ++ line else line

/-- `strings.HasPrefix(line, "--")`, computed on the character list. -/
def hasDashDash (line : String) : Bool :=
  match line.data with
  | '-' :: '-' :: _ => true
  | _ => false

/-- The loop of `applyStepsStream` (dialects.go lines 367-423, the
context-aware version) over the scanner's lines, in state-passing form:
`buf` is the accumulated statement text, `newStep` tells whether the next
batch has not started yet (so leading `--` comments are skipped), `step` the
zero-based batch counter, and `exec n` the backend's answer to the n-th
`tx.ExecContext` call.  The result pairs the returned error with the list of
batch texts passed to `ExecContext`, in order.  (Scanner read errors and the
1 MiB line-buffer limit are not modelled; the input is the line sequence the
scanner produces.) -/
def applyStepsAux (exec : Nat → Option GoError) (migrationID : String) :
    List String → String → Bool → Nat → Option GoError × List String
  | [], buf, _, step =>
    if decide (0 < buf.length) then
      match exec step with
      | some e => (some (.stepErr migrationID step true e), [buf])
      | none => (none, [buf])
    else (none, [])
  | line :: rest, buf, newStep, step =>
    if newStep && hasDashDash line then
      applyStepsAux exec migrationID rest buf newStep step
    else if decide (line = ";") then
      match exec step with
      | some e => (some (.stepErr migrationID step false e), [buf])
      | none =>
        let res := applyStepsAux exec migrationID rest "" true (step + 1)
        (res.1, buf :: res.2)
    else applyStepsAux exec migrationID rest (bufAppend buf line) false step

/-- `applyStepsStream` from dialects.go lines 367-423: start with an empty
buffer, a fresh batch and step 0. -/
def applyStepsStream (exec : Nat → Option GoError) (lines : List String)
    (migrationID : String) : Option GoError × List String :=
  applyStepsAux exec migrationID lines "" true 0

/-- The executor that accepts every batch. -/
def okExec : Nat → Option GoError := fun _ => none

/-- The groups of lines separated by terminator lines consisting of exactly
";" (spec wording: "everything accumulated since the previous terminator");
`n` terminator lines give `n + 1` groups. -/
def splitGroups : List String → List (List String)
  | [] => [[]]
  | l :: rest =>
    if decide (l = ";") then [] :: splitGroups rest
    else
      match splitGroups rest with
      | [] => [[l]]
      | g :: gs => (l :: g) :: gs

/-- The leading `--` comment lines of a batch (spec wording: "a line that is
the first line of a new batch and begins with a comment marker") are
dropped. -/
def stripLeadingComments (g : List String) : List String :=
  g.dropWhile hasDashDash

/-- Folding the remaining lines of a batch through the buffer. -/
def joinLines (g : List String) : String := g.foldl bufAppend ""

/-- The text of one batch: leading comments dropped, the rest joined
through the buffer. -/
def batchText (g : List String) : String := joinLines (stripLeadingComments g)

/-- The batches the splitter executes, described from the stream structure:
one batch per terminator line, plus the final group if its accumulated text
is non-empty. -/
def specBatches (lines : List String) : List String :=
  let ts := (splitGroups lines).map batchText
  ts.dropLast ++ (if decide (0 < (ts.getLastD "").length) then [ts.getLastD ""] else [])

/-- Modelled from the spec: the text of a batch with its lines joined with
a newline separator between every pair of consecutive lines, as the words
"the lines accumulated since the previous terminator joined with a newline"
prescribe. -/
def batchTextNL (g : List String) : String :=
  String.intercalate "\n" (stripLeadingComments g)

/-- Modelled from the spec: the batch sequence under the plain
joined-with-newline reading of the claim. -/
def specBatchesNL (lines : List String) : List String :=
  let ts := (splitGroups lines).map batchTextNL
  ts.dropLast ++ (if decide (0 < (ts.getLastD "").length) then [ts.getLastD ""] else [])

example : applyStepsStream okExec ["a", "b", ";", "c"] "m" = (none, ["a\nb", "c"]) := by decide

example : applyStepsStream okExec ["--c", "a", ";", "--d", "b", ";", "e"] "m"
    = (none, ["a", "b", "e"]) := by decide

example : specBatches ["a", "b", ";", "c"] = ["a\nb", "c"] := by decide

theorem hasDashDash_ne_semi (l : String) (h : hasDashDash l = true) :
    decide (l = ";") = false := by
  cases hs : decide (l = ";") with
  | false => rfl
  | true =>
    rw [decide_eq_true_eq] at hs
    subst hs
    cases h

/-- The first group of the stream: the lines before the first terminator. -/
def firstGroup (lines : List String) : List String :=
  lines.takeWhile (fun l => !(decide (l = ";")))

/-- The remaining stream after the first terminator, if any. -/
def afterFirst : List String → Option (List String)
  | [] => none
  | l :: rest => if decide (l = ";") then some rest else afterFirst rest

theorem afterFirst_length (lines : List String) :
    ∀ r, afterFirst lines = some r → r.length < lines.length := by
  induction lines with
  | nil => intro r h; cases h
  | cons l rest ih =>
    intro r h
    rw [afterFirst] at h
    by_cases hl : l = ";"
    · rw [if_pos (by simp [hl])] at h
      cases h
      simp
    · rw [if_neg (by simp [hl])] at h
      exact Nat.lt_trans (ih r h) (by simp)

theorem splitGroups_ne_nil (lines : List String) : splitGroups lines ≠ [] := by
  cases lines with
  | nil => simp [splitGroups]
  | cons l rest =>
    rw [splitGroups]
    by_cases hl : l = ";"
    · rw [if_pos (by simp [hl])]
      simp
    · rw [if_neg (by simp [hl])]
      cases splitGroups rest <;> simp

theorem splitGroups_decomp (lines : List String) :
    splitGroups lines
      = firstGroup lines
        :: (match afterFirst lines with
            | none => []
            | some r => splitGroups r) := by
  induction lines with
  | nil => rfl
  | cons l rest ih =>
    rw [splitGroups, afterFirst, firstGroup]
    by_cases hl : l = ";"
    · rw [if_pos (by simp [hl]), if_pos (by simp [hl])]
      simp [hl]
    · rw [if_neg (by simp [hl]), if_neg (by simp [hl])]
      rw [ih]
      rw [List.takeWhile_cons]
      simp [hl]
      rfl

theorem map_batchText_ne_nil (lines : List String) :
    (splitGroups lines).map batchText ≠ [] := by
  intro h
  exact splitGroups_ne_nil lines (List.map_eq_nil_iff.mp h)

theorem getLastD_cons_ne_nil (x : String) (t : List String) (ht : t ≠ []) :
    (x :: t).getLastD "" = t.getLastD "" := by
  cases t with
  | nil => exact absurd rfl ht
  | cons y t' => rfl

theorem specBatches_decomp (lines : List String) :
    specBatches lines
      = match afterFirst lines with
        | none =>
          if decide (0 < (batchText (firstGroup lines)).length)
          then [batchText (firstGroup lines)] else []
        | some r => batchText (firstGroup lines) :: specBatches r := by
  rw [specBatches, splitGroups_decomp lines]
  cases haf : afterFirst lines with
  | none => simp
  | some r =>
    simp only [List.map_cons]
    have hne := map_batchText_ne_nil r
    rw [List.dropLast_cons_of_ne_nil hne]
    simp only [getLastD_cons_ne_nil _ _ hne]
    rw [specBatches]
    simp

theorem applyStepsAux_okExec_fst (mid : String) :
    ∀ (lines : List String) (buf : String) (ns : Bool) (step : Nat),
      (applyStepsAux okExec mid lines buf ns step).1 = none := by
  intro lines
  induction lines with
  | nil =>
    intro buf ns step
    rw [applyStepsAux]
    by_cases h : 0 < buf.length
    · rw [if_pos (by simpa using h)]
      rfl
    · rw [if_neg (by simpa using h)]
  | cons line rest ih =>
    intro buf ns step
    rw [applyStepsAux]
    by_cases h1 : (ns && hasDashDash line) = true
    · rw [if_pos h1]
      exact ih buf ns step
    · rw [if_neg h1]
      by_cases h2 : line = ";"
      · rw [if_pos (by simp [h2])]
        simp only [okExec]
        exact ih "" true (step + 1)
      · rw [if_neg (by simp [h2])]
        exact ih (bufAppend buf line) false step

theorem applyStepsAux_okExec_false (mid : String) :
    ∀ (lines : List String) (buf : String) (step : Nat),
      (applyStepsAux okExec mid lines buf false step).2
        = match afterFirst lines with
          | none =>
            if decide (0 < ((firstGroup lines).foldl bufAppend buf).length)
            then [(firstGroup lines).foldl bufAppend buf] else []
          | some r =>
            (firstGroup lines).foldl bufAppend buf
              :: (applyStepsAux okExec mid r "" true (step + 1)).2 := by
  intro lines
  induction lines with
  | nil =>
    intro buf step
    rw [applyStepsAux]
    simp only [okExec, afterFirst, firstGroup, List.takeWhile_nil, List.foldl_nil]
    by_cases h : (0 < buf.length)
    · simp [h]
    · simp [h]
  | cons l rest ih =>
    intro buf step
    rw [applyStepsAux, if_neg (by simp)]
    by_cases hl : l = ";"
    · subst hl
      rw [if_pos (by simp)]
      simp only [okExec, afterFirst, firstGroup, List.takeWhile_cons]
      simp
    · rw [if_neg (by simp [hl]), ih (bufAppend buf l) step]
      simp only [afterFirst, firstGroup, List.takeWhile_cons]
      simp only [decide_eq_true_eq]
      rw [if_neg hl]
      simp [hl]

theorem specBatches_comment_cons (l : String) (rest : List String)
    (hc : hasDashDash l = true) :
    specBatches (l :: rest) = specBatches rest := by
  have hns : ¬ (decide (l = ";") = true) := by
    rw [hasDashDash_ne_semi l hc]
    simp
  obtain ⟨g, gs, hgs⟩ := List.exists_cons_of_ne_nil (splitGroups_ne_nil rest)
  have h1 : splitGroups (l :: rest) = (l :: g) :: gs := by
    rw [splitGroups, if_neg hns, hgs]
  have hbt : batchText (l :: g) = batchText g := by
    rw [batchText, batchText, stripLeadingComments, stripLeadingComments,
        List.dropWhile_cons]
    simp [hc]
  rw [specBatches, specBatches, h1, hgs]
  simp only [List.map_cons, hbt]

theorem specBatches_semi_cons (rest : List String) :
    specBatches (";" :: rest) = "" :: specBatches rest := by
  have h1 : splitGroups (";" :: rest) = [] :: splitGroups rest := by
    rw [splitGroups, if_pos (by simp)]
  rw [specBatches, specBatches, h1]
  simp only [List.map_cons]
  have hne := map_batchText_ne_nil rest
  rw [List.dropLast_cons_of_ne_nil hne]
  simp only [getLastD_cons_ne_nil _ _ hne]
  have hbt : batchText ([] : List String) = "" := rfl
  rw [hbt]
  simp

theorem specBatches_other_cons (l : String) (rest : List String)
    (hc : hasDashDash l = false) (hl : ¬ l = ";") :
    specBatches (l :: rest)
      = match afterFirst rest with
        | none =>
          if decide (0 < ((firstGroup rest).foldl bufAppend l).length)
          then [(firstGroup rest).foldl bufAppend l] else []
        | some r => ((firstGroup rest).foldl bufAppend l) :: specBatches r := by
  have hfg : firstGroup (l :: rest) = l :: firstGroup rest := by
    rw [firstGroup, firstGroup, List.takeWhile_cons]
    simp [hl]
  have haf : afterFirst (l :: rest) = afterFirst rest := by
    rw [afterFirst, if_neg (by simp [hl])]
  have hbt : batchText (firstGroup (l :: rest)) = (firstGroup rest).foldl bufAppend l := by
    rw [hfg, batchText, stripLeadingComments, List.dropWhile_cons]
    rw [hc]
    simp only [Bool.false_eq_true, if_false, joinLines, List.foldl_cons]
    have h0 : bufAppend "" l = l := rfl
    rw [h0]
  rw [specBatches_decomp, haf, hbt]

theorem applyStepsAux_okExec_true (mid : String) :
    ∀ (n : Nat) (lines : List String), lines.length ≤ n → ∀ step : Nat,
      (applyStepsAux okExec mid lines "" true step).2 = specBatches lines := by
  intro n
  induction n with
  | zero =>
    intro lines hlen step
    have h0 : lines = [] := List.eq_nil_of_length_eq_zero (Nat.le_zero.mp hlen)
    subst h0
    rfl
  | succ n ih =>
    intro lines hlen step
    cases lines with
    | nil => rfl
    | cons l rest =>
      rw [List.length_cons, Nat.succ_le_succ_iff] at hlen
      by_cases hc : hasDashDash l = true
      · rw [applyStepsAux, if_pos (by simp [hc])]
        rw [ih rest hlen step, specBatches_comment_cons l rest hc]
      · by_cases hl : l = ";"
        · subst hl
          rw [applyStepsAux, if_neg (by simp [hasDashDash]), if_pos (by simp)]
          simp only [okExec]
          rw [specBatches_semi_cons]
          show "" :: (applyStepsAux okExec mid rest "" true (step + 1)).2
              = "" :: specBatches rest
          rw [ih rest hlen (step + 1)]
        · rw [applyStepsAux, if_neg (by simp [hc]), if_neg (by simp [hl])]
          have h0 : bufAppend "" l = l := rfl
          rw [h0, applyStepsAux_okExec_false mid rest l step]
          rw [specBatches_other_cons l rest (by simpa using hc) hl]
          cases haf : afterFirst rest with
          | none => rfl
          | some r =>
            have hr : r.length ≤ n := by
              have := afterFirst_length rest r haf
              omega
            show ((firstGroup rest).foldl bufAppend l)
                :: (applyStepsAux okExec mid r "" true (step + 1)).2
              = ((firstGroup rest).foldl bufAppend l) :: specBatches r
            rw [ih r hr (step + 1)]

/-- Counterexample to C4 as stated: on the stream ["", "a", ";"] the lines
accumulated since the start are "" and "a", whose plain join with a newline
is "\na"; but the splitter only writes the newline separator when the buffer
is already non-empty, so the batch actually executed is "a".  The executed
batch list therefore differs from the joined-with-newline reading. -/
theorem splitter_not_plain_join :
    applyStepsStream okExec ["", "a", ";"] "m" ≠ (none, specBatchesNL ["", "a", ";"]) := by
  decide

/-- C4 amended: a line consisting of exactly ";" terminates the current
batch, whose executed text is the accumulated lines of the batch folded
through the buffer — a newline separator is inserted only when the
accumulator is already non-empty (so leading empty lines contribute no
separator) — after which the accumulator resets; remaining non-empty content
is executed as one final batch.  `specBatches` states this shape on the
group structure of the stream. -/
theorem splitter_batches (lines : List String) (migID : String) :
    applyStepsStream okExec lines migID = (none, specBatches lines) := by
  rw [applyStepsStream]
  have h1 := applyStepsAux_okExec_fst migID lines "" true 0
  have h2 := applyStepsAux_okExec_true migID lines.length lines (le_refl _) 0
  exact Prod.ext h1 h2

/-- Head equation: a terminator line executes the buffer and restarts. -/
theorem applyStepsAux_semi_cons (exec : Nat → Option GoError) (mid : String)
    (rest : List String) (buf : String) (ns : Bool) (step : Nat) :
    applyStepsAux exec mid (";" :: rest) buf ns step
      = match exec step with
        | some e => (some (.stepErr mid step false e), [buf])
        | none =>
          ((applyStepsAux exec mid rest "" true (step + 1)).1,
           buf :: (applyStepsAux exec mid rest "" true (step + 1)).2) := by
  rw [applyStepsAux]
  have h1 : ¬ ((ns && hasDashDash ";") = true) := by
    cases ns <;> simp [hasDashDash]
  have h2 : decide ((";" : String) = ";") = true := by simp
  rw [if_neg h1, if_pos h2]

/-- Head equation: a leading comment line of a fresh batch is skipped. -/
theorem applyStepsAux_comment_cons (exec : Nat → Option GoError) (mid : String)
    (l : String) (hl : hasDashDash l = true) (rest : List String) (buf : String)
    (step : Nat) :
    applyStepsAux exec mid (l :: rest) buf true step
      = applyStepsAux exec mid rest buf true step := by
  rw [applyStepsAux]
  have h1 : (true && hasDashDash l) = true := by simp [hl]
  rw [if_pos h1]

/-- Head equation: any other line is appended to the buffer. -/
theorem applyStepsAux_append_cons (exec : Nat → Option GoError) (mid : String)
    (l : String) (rest : List String) (buf : String) (ns : Bool) (step : Nat)
    (h1 : (ns && hasDashDash l) = false) (h2 : ¬ l = ";") :
    applyStepsAux exec mid (l :: rest) buf ns step
      = applyStepsAux exec mid rest (bufAppend buf l) false step := by
  rw [applyStepsAux]
  have h1a : ¬ ((ns && hasDashDash l) = true) := by simp [h1]
  have h2a : ¬ (decide (l = ";") = true) := by simp [h2]
  rw [if_neg h1a, if_neg h2a]

/-- Inserting a comment line directly after a terminator does not change the
splitter's behaviour, whatever state the loop is in when it reaches the
terminator. -/
theorem applyStepsAux_insert_comment (mid c : String) (hc : hasDashDash c = true)
    (after : List String) :
    ∀ (before : List String) (buf : String) (ns : Bool) (step : Nat),
      applyStepsAux okExec mid (before ++ ";" :: c :: after) buf ns step
        = applyStepsAux okExec mid (before ++ ";" :: after) buf ns step := by
  intro before
  induction before with
  | nil =>
    intro buf ns step
    simp only [List.nil_append]
    rw [applyStepsAux_semi_cons, applyStepsAux_semi_cons]
    simp only [okExec]
    rw [applyStepsAux_comment_cons okExec mid c hc after "" (step + 1)]
  | cons x before1 ih =>
    intro buf ns step
    simp only [List.cons_append]
    by_cases h1 : (ns && hasDashDash x) = true
    · have hns : ns = true := by
        cases ns
        · cases h1
        · rfl
      have hx : hasDashDash x = true := by
        cases hx0 : hasDashDash x
        · rw [hns, hx0] at h1
          cases h1
        · rfl
      subst hns
      rw [applyStepsAux_comment_cons okExec mid x hx _ buf step,
          applyStepsAux_comment_cons okExec mid x hx _ buf step, ih]
    · have h1f : (ns && hasDashDash x) = false := by
        cases h0 : (ns && hasDashDash x)
        · rfl
        · exact absurd h0 h1
      by_cases h2 : x = ";"
      · subst h2
        rw [applyStepsAux_semi_cons, applyStepsAux_semi_cons]
        simp only [okExec]
        rw [ih "" true (step + 1)]
      · rw [applyStepsAux_append_cons okExec mid x _ buf ns step h1f h2,
            applyStepsAux_append_cons okExec mid x _ buf ns step h1f h2,
            ih (bufAppend buf x) false step]

/-- C7: in every batch — the first one (stream start) and every batch opened
by a terminator — a leading `--` comment line is skipped entirely and
contributes nothing to the executed batches; a `--` line that follows
non-comment content of its batch is kept unchanged inside the batch text. -/
theorem leading_comments_skipped (migID : String) (before after : List String)
    (c : String) (hc : hasDashDash c = true) :
    (applyStepsStream okExec (c :: after) migID = applyStepsStream okExec after migID)
    ∧ (applyStepsStream okExec (before ++ ";" :: c :: after) migID
        = applyStepsStream okExec (before ++ ";" :: after) migID)
    ∧ (∀ x, hasDashDash x = false → ¬ x = ";" →
        applyStepsStream okExec [x, c, ";"] migID = (none, [bufAppend x c])) := by
  refine ⟨?_, ?_, ?_⟩
  · rw [applyStepsStream, applyStepsStream,
        applyStepsAux_comment_cons okExec migID c hc after "" 0]
  · exact applyStepsAux_insert_comment migID c hc after before "" true 0
  · intro x hx hxs
    rw [applyStepsStream]
    rw [applyStepsAux_append_cons okExec migID x _ "" true 0 (by simp [hx]) hxs]
    have h0 : bufAppend "" x = x := rfl
    rw [h0]
    rw [applyStepsAux_append_cons okExec migID c _ x false 0 (by simp)
          (fun h => by rw [h] at hc; cases hc)]
    rw [applyStepsAux_semi_cons]
    simp only [okExec]
    rfl

/-- Witness for C7 at concrete streams: a leading comment at stream start, a
leading comment of the second batch, and a kept mid-batch comment. -/
theorem leading_comments_skipped_witness :
    (applyStepsStream okExec ["--c", "b"] "m" = applyStepsStream okExec ["b"] "m")
    ∧ (applyStepsStream okExec (["a"] ++ ";" :: "--c" :: ["b"]) "m"
        = applyStepsStream okExec (["a"] ++ ";" :: ["b"]) "m")
    ∧ applyStepsStream okExec ["x", "--c", ";"] "m" = (none, [bufAppend "x" "--c"]) :=
  have h := leading_comments_skipped "m" ["a"] ["b"] "--c" (by decide)
  ⟨h.1, h.2.1, h.2.2 "x" (by decide) (by decide)⟩

theorem applyStepsAux_firstFailure (mid : String) (exec : Nat → Option GoError)
    (j : Nat) (e : GoError) (hfail : exec j = some e)
    (hpre : ∀ i, i < j → exec i = none) :
    ∀ (lines : List String) (buf : String) (ns : Bool) (step : Nat), step ≤ j →
      (j - step < (applyStepsAux okExec mid lines buf ns step).2.length →
        ∃ fin, applyStepsAux exec mid lines buf ns step
          = (some (.stepErr mid j fin e),
             (applyStepsAux okExec mid lines buf ns step).2.take (j - step + 1)))
      ∧ ((applyStepsAux okExec mid lines buf ns step).2.length ≤ j - step →
        applyStepsAux exec mid lines buf ns step
          = applyStepsAux okExec mid lines buf ns step) := by
  intro lines
  induction lines with
  | nil =>
    intro buf ns step hstep
    rw [applyStepsAux, applyStepsAux]
    by_cases hbuf : 0 < buf.length
    · have hb : decide (0 < buf.length) = true := by simp [hbuf]
      rw [if_pos hb, if_pos hb]
      simp only [okExec]
      rcases Nat.lt_or_ge step j with hsj | hsj
      · rw [hpre step hsj]
        constructor
        · intro hlen
          simp only [List.length_cons, List.length_nil] at hlen
          omega
        · intro _
          rfl
      · have hj : step = j := Nat.le_antisymm hstep hsj
        subst hj
        rw [hfail]
        constructor
        · intro _
          refine ⟨true, ?_⟩
          have h00 : step - step + 1 = 1 := by omega
          rw [h00]
          rfl
        · intro hlen
          simp only [List.length_cons, List.length_nil] at hlen
          omega
    · have hb : ¬ (decide (0 < buf.length) = true) := by simp [hbuf]
      rw [if_neg hb, if_neg hb]
      constructor
      · intro hlen
        simp at hlen
      · intro _
        rfl
  | cons line rest ih =>
    intro buf ns step hstep
    by_cases h1 : (ns && hasDashDash line) = true
    · have hns : ns = true := by
        cases ns
        · cases h1
        · rfl
      have hx : hasDashDash line = true := by
        cases h0 : hasDashDash line
        · rw [hns, h0] at h1
          cases h1
        · rfl
      subst hns
      rw [applyStepsAux_comment_cons exec mid line hx rest buf step,
          applyStepsAux_comment_cons okExec mid line hx rest buf step]
      exact ih buf true step hstep
    · have h1f : (ns && hasDashDash line) = false := by
        cases h0 : (ns && hasDashDash line)
        · rfl
        · exact absurd h0 h1
      by_cases h2 : line = ";"
      · subst h2
        rw [applyStepsAux_semi_cons, applyStepsAux_semi_cons]
        simp only [okExec]
        rcases Nat.lt_or_ge step j with hsj | hsj
        · rw [hpre step hsj]
          have ihr := ih "" true (step + 1) (by omega)
          constructor
          · intro hlen
            simp only [List.length_cons] at hlen
            have hlen1 : j - (step + 1)
                < (applyStepsAux okExec mid rest "" true (step + 1)).2.length := by
              omega
            obtain ⟨fin, hfin⟩ := ihr.1 hlen1
            refine ⟨fin, ?_⟩
            rw [hfin]
            have htake : (buf :: (applyStepsAux okExec mid rest "" true (step + 1)).2).take
                  (j - step + 1)
                = buf :: ((applyStepsAux okExec mid rest "" true (step + 1)).2.take
                    (j - step)) := rfl
            rw [htake]
            have harith : j - step = j - (step + 1) + 1 := by omega
            rw [harith]
          · intro hlen
            simp only [List.length_cons] at hlen
            have hlen1 : (applyStepsAux okExec mid rest "" true (step + 1)).2.length
                ≤ j - (step + 1) := by omega
            rw [ihr.2 hlen1]
        · have hj : step = j := Nat.le_antisymm hstep hsj
          subst hj
          rw [hfail]
          constructor
          · intro _
            refine ⟨false, ?_⟩
            have h00 : step - step + 1 = 1 := by omega
            rw [h00]
            rfl
          · intro hlen
            simp only [List.length_cons] at hlen
            omega
      · rw [applyStepsAux_append_cons exec mid line rest buf ns step h1f h2,
            applyStepsAux_append_cons okExec mid line rest buf ns step h1f h2]
        exact ih (bufAppend buf line) false step hstep

/-- C8: if every batch before index `j` executes fine and the `j`-th
`ExecContext` call fails (with `j` within the stream's batch count), the
splitter aborts immediately: the executed batches are exactly the first
`j + 1` of the stream's batches (none after the failing one), and the
returned error wraps the backend error with the migration's source
identifier and the zero-based batch index `j`. -/
theorem batch_failure_aborts (lines : List String) (migID : String)
    (exec : Nat → Option GoError) (j : Nat) (e : GoError)
    (hfail : exec j = some e) (hpre : ∀ i, i < j → exec i = none)
    (hj : j < (specBatches lines).length) :
    ∃ fin, applyStepsStream exec lines migID
      = (some (.stepErr migID j fin e), (specBatches lines).take (j + 1)) := by
  have hok2 := applyStepsAux_okExec_true migID lines.length lines (le_refl _) 0
  have h := (applyStepsAux_firstFailure migID exec j e hfail hpre lines "" true 0 (Nat.zero_le j)).1
  rw [hok2] at h
  have hj0 : j - 0 < (specBatches lines).length := by omega
  obtain ⟨fin, hfin⟩ := h hj0
  refine ⟨fin, ?_⟩
  rw [applyStepsStream, hfin]
  simp

/-- The executor failing exactly on the second batch. -/
def execFailAt1 : Nat → Option GoError :=
  fun n => if n = 1 then some (.sentinel "bad sql") else none

/-- Witness for C8: on a three-batch stream whose second batch fails, the
splitter stops after two executed batches with the wrapped error naming the
migration id and index 1. -/
theorem batch_failure_aborts_witness :
    ∃ fin, applyStepsStream execFailAt1 ["a", ";", "b", ";", "c"] "m"
      = (some (.stepErr "m" 1 fin (.sentinel "bad sql")),
         (specBatches ["a", ";", "b", ";", "c"]).take 2) :=
  batch_failure_aborts ["a", ";", "b", ";", "c"] "m" execFailAt1 1 (.sentinel "bad sql")
    rfl
    (by
      intro i hi
      have h0 : i = 0 := by omega
      subst h0
      rfl)
    (by decide)
